import Mathlib

/-!
Shallow embedding of `dice_ml/data_interfaces/private_data_interface.py`
(class `PrivateData`) and proofs about its behaviour.

Conventions of the embedding:
* Python numbers are modelled as rationals (`ℚ`), so that the arithmetic of
  `normalize_data` and `de_normalize_data` is exact.
* Python dictionaries are modelled as association lists in insertion order;
  dictionary access that can raise `KeyError` is modelled with `Except`.
* Python exceptions (`ValueError`, `KeyError`, `NameError`, `AttributeError`,
  `IndexError`) are modelled by the `PyErr` type; a method that can raise is
  modelled as a function into `Except PyErr _`.
* A pandas `DataFrame` whose cells are numeric is modelled as an ordered list
  of named columns (`DFrame`); `from_dummies` produces frames that mix numeric
  and string columns (`MixedFrame`).
* The attribute `encoded_feature_names`, which the constructor assigns only
  when at least one categorical feature is declared, is modelled as an
  `Option`; reading it when it is `none` produces an `AttributeError`, exactly
  as reading a missing attribute does in Python.
-/

/-- Python exceptions that the translated code can raise. -/
inductive PyErr where
  | valueError (msg : String)
  | keyError (key : String)
  | nameError (name : String)
  | attributeError (name : String)
  | indexError
deriving DecidableEq

/-- A value of the `features` dictionary.  The Python code classifies a
declared value by testing whether its first element is an `int`
(`type(features_dict[feature][0]) is int`): a pair of numbers declares a
continuous feature with a permitted range, and a list of strings declares a
categorical feature with its levels.  An empty declared list makes the
classification test raise `IndexError`; this is the `cat []` case. -/
inductive FeatureDecl where
  | cont (lo hi : ℚ)
  | cat (levels : List String)
deriving DecidableEq

/-- Test used by the classification loop: is the declared value continuous. -/
def FeatureDecl.isCont : FeatureDecl → Bool
  | .cont _ _ => true
  | .cat _ => false

/-- The declared range of a continuous feature (unused for categoricals). -/
def FeatureDecl.rangeOf : FeatureDecl → ℚ × ℚ
  | .cont lo hi => (lo, hi)
  | .cat _ => (0, 0)

/-- The declared levels of a categorical feature (unused for continuous). -/
def FeatureDecl.levelsOf : FeatureDecl → List String
  | .cont _ _ => []
  | .cat ls => ls

/-- A value of the `type_and_precision` dictionary: the string `int`, or a
pair of the string `float` and a decimal-place count. -/
inductive TypePrec where
  | int
  | floatPrec (places : Nat)
deriving DecidableEq

/-- The `features` constructor argument: either a dictionary or something of
another runtime type (which fails the `type(...) is dict` check). -/
inductive FeaturesArg where
  | dict (fs : List (String × FeatureDecl))
  | nonDict
deriving DecidableEq

/-- Test corresponding to `type(params[features]) is dict`. -/
def FeaturesArg.isDict : FeaturesArg → Bool
  | .dict _ => true
  | .nonDict => false

/-- The `outcome_name` constructor argument: either a string or something of
another runtime type (which fails the `type(...) is str` check). -/
inductive OutcomeArg where
  | str (s : String)
  | nonStr
deriving DecidableEq

/-- Test corresponding to `type(params[outcome_name]) is str`. -/
def OutcomeArg.isStr : OutcomeArg → Bool
  | .str _ => true
  | .nonStr => false

/-- The `params` dictionary passed to the constructor.  The optional keys
`type_and_precision` and `mad` are modelled with `Option`. -/
structure Params where
  features : FeaturesArg
  outcome_name : OutcomeArg
  type_and_precision : Option (List (String × TypePrec))
  mad : Option (List ℚ)

/-- Lookup in an association list modelling a Python dictionary, returning
`none` when the key is absent. -/
def lookupAssoc {α : Type} (l : List (String × α)) (k : String) : Option α :=
  (l.find? (fun p => p.1 == k)).map (fun p => p.2)

/-- Dictionary access `d[k]`: raises `KeyError` when the key is absent. -/
def dictGet {α : Type} (l : List (String × α)) (k : String) : Except PyErr α :=
  match l.find? (fun p => p.1 == k) with
  | some p => Except.ok p.2
  | none => Except.error (PyErr.keyError k)

/-- Lexicographic comparison of character lists by code point, the order used
by the Python built-in comparison of strings. -/
def charListLE : List Char → List Char → Bool
  | [], _ => true
  | _ :: _, [] => false
  | a :: as, b :: bs => if a < b then true else if b < a then false else charListLE as bs

/-- Python string comparison `s <= t` (lexicographic by code point). -/
def strLE (s t : String) : Bool :=
  charListLE s.data t.data

/-- Insertion step of the stable ascending sort modelling Python `sorted`. -/
def insertSorted (x : String) : List String → List String
  | [] => [x]
  | y :: ys => if strLE x y then x :: y :: ys else y :: insertSorted x ys

/-- The Python built-in `sorted` on a list of strings: stable ascending sort
by the lexicographic order. -/
def sortedLevels : List String → List String
  | [] => []
  | x :: xs => insertSorted x (sortedLevels xs)

/-- Python `s.startswith(pre)`, as a prefix test on the character lists. -/
def strStartsWith (s pre : String) : Bool :=
  pre.data.isPrefixOf s.data

/-- Python `sub in s` (substring containment) on character lists. -/
def charListContains (pat : List Char) : List Char → Bool
  | [] => pat.isEmpty
  | c :: rest => pat.isPrefixOf (c :: rest) || charListContains pat rest

/-- Python `sub in s` for strings. -/
def strContains (s sub : String) : Bool :=
  charListContains sub.data s.data

/-- Helper for `pyReplaceAll`: removes every occurrence of `pat` from `l`,
scanning left to right, as `str.replace(pat, "")` does. -/
def removeAllAux (pat : List Char) (l : List Char) : List Char :=
  match l with
  | [] => []
  | c :: rest =>
    if pat.isPrefixOf (c :: rest) ∧ pat ≠ [] then
      removeAllAux pat (List.drop (pat.length - 1) rest)
    else
      c :: removeAllAux pat rest
termination_by l.length
decreasing_by
  all_goals simp [List.length_drop]
  omega

/-- Python `s.replace(pat, "")`: removes all occurrences of `pat`. -/
def pyReplaceAll (s pat : String) : String :=
  ⟨removeAllAux pat.data s.data⟩

/-- The schema object built by `PrivateData.__init__`.  Field names follow the
Python attribute names.  `encoded_feature_names` is `none` when the attribute
was never assigned (no categorical features declared). -/
structure PrivateData where
  outcome_name : String
  type_and_precision : List (String × TypePrec)
  mad : List ℚ
  continuous_feature_names : List String
  permitted_range : List (String × (ℚ × ℚ))
  categorical_feature_names : List String
  categorical_levels : List (String × List String)
  feature_names : List String
  continuous_feature_indexes : List Nat
  categorical_feature_indexes : List Nat
  encoded_feature_names : Option (List String)
deriving DecidableEq

/-- Test for a declared value on which the classification loop raises
`IndexError` (`features_dict[feature][0]` on an empty sequence). -/
def hasEmptyDecl (fs : List (String × FeatureDecl)) : Bool :=
  fs.any (fun p => match p.2 with | .cat [] => true | _ => false)

/-- The pure part of `PrivateData.__init__`, run after the two type checks and
after the classification loop is known not to raise: classification of each
feature, the permitted ranges and categorical levels, the feature index lists,
the simulated one-hot layout `encoded_feature_names` (assigned only when at
least one categorical feature exists), and the `type_and_precision` default
fill (which the Python code performs only when the supplied dictionary is
empty). -/
def buildSchema (features_dict : List (String × FeatureDecl)) (outcome_name : String)
    (type_and_precision0 : List (String × TypePrec)) (mad : List ℚ) : PrivateData :=
  let continuous_feature_names := (features_dict.filter (fun p => p.2.isCont)).map (fun p => p.1)
  let permitted_range :=
    (features_dict.filter (fun p => p.2.isCont)).map (fun p => (p.1, p.2.rangeOf))
  let categorical_feature_names :=
    (features_dict.filter (fun p => !p.2.isCont)).map (fun p => p.1)
  let categorical_levels :=
    (features_dict.filter (fun p => !p.2.isCont)).map (fun p => (p.1, p.2.levelsOf))
  let feature_names := features_dict.map (fun p => p.1)
  let continuous_feature_indexes :=
    (continuous_feature_names.filter (fun n => feature_names.contains n)).map
      (fun n => feature_names.indexOf n)
  let categorical_feature_indexes :=
    (categorical_feature_names.filter (fun n => feature_names.contains n)).map
      (fun n => feature_names.indexOf n)
  let encoded_feature_names : Option (List String) :=
    if categorical_feature_names.length > 0 then
      some (continuous_feature_names ++
        categorical_feature_names.flatMap (fun fname =>
          (sortedLevels ((lookupAssoc categorical_levels fname).getD [])).map
            (fun category => fname ++ "_" ++ category)))
    else none
  let type_and_precision :=
    if type_and_precision0.length = 0 then
      continuous_feature_names.map (fun f => (f, TypePrec.int))
    else type_and_precision0
  { outcome_name := outcome_name
    type_and_precision := type_and_precision
    mad := mad
    continuous_feature_names := continuous_feature_names
    permitted_range := permitted_range
    categorical_feature_names := categorical_feature_names
    categorical_levels := categorical_levels
    feature_names := feature_names
    continuous_feature_indexes := continuous_feature_indexes
    categorical_feature_indexes := categorical_feature_indexes
    encoded_feature_names := encoded_feature_names }

/-- `PrivateData.__init__`: checks that `features` is a dictionary and that
`outcome_name` is a string (raising `ValueError` otherwise, in this order),
then classifies the declared features and assembles the schema.  The
classification loop raises `IndexError` on the first declared value with no
elements; since the partially built object is discarded when the constructor
raises, this is modelled as an up-front check. -/
def mkPrivateData (params : Params) : Except PyErr PrivateData :=
  match params.features with
  | .nonDict =>
    Except.error (PyErr.valueError
      "should provide dictionary with feature names as keys and range (for continuous features) or categories (for categorical features) as values")
  | .dict features_dict =>
    match params.outcome_name with
    | .nonStr => Except.error (PyErr.valueError "should provide the name of outcome feature")
    | .str outcome_name =>
      if hasEmptyDecl features_dict then Except.error PyErr.indexError
      else
        Except.ok (buildSchema features_dict outcome_name
          (params.type_and_precision.getD [])
          (params.mad.getD (List.replicate features_dict.length (1 : ℚ))))

/-- Structural version of a monadic map over `Except`, used to model list
comprehensions whose body can raise. -/
def mapExcept {α β ε : Type} (f : α → Except ε β) : List α → Except ε (List β)
  | [] => Except.ok []
  | a :: l => do
    let b ← f a
    let bs ← mapExcept f l
    pure (b :: bs)

/-- A pandas data frame with numeric cells: an ordered list of named columns. -/
abbrev DFrame : Type := List (String × List ℚ)

/-- Column assignment `result[name] = col`: overwrites an existing column in
place, otherwise appends the new column on the right. -/
def dfSetCol (df : DFrame) (name : String) (col : List ℚ) : DFrame :=
  if (List.any df (fun p => p.1 == name)) then
    List.map (fun p => if p.1 == name then (p.1, col) else p) df
  else df ++ [(name, col)]

/-- Per-cell formula of `normalize_data`. -/
def normCell (mn mx v : ℚ) : ℚ :=
  (v - mn) / (mx - mn)

/-- Per-cell formula of `de_normalize_data`. -/
def deNormCell (mn mx v : ℚ) : ℚ :=
  v * (mx - mn) + mn

/-- Shared shape of `normalize_data` and `de_normalize_data`: for every name
in `names` (the continuous features), look up its permitted range in `pr`
(dictionary access), read the column from the ORIGINAL input frame `df`
(both methods read `df[feature_name]`, not the partial result), and assign
the transformed column in the result, which starts as a copy of `df`. -/
def transformContinuousCols (names : List String) (pr : List (String × (ℚ × ℚ)))
    (F : ℚ → ℚ → ℚ → ℚ) (df : DFrame) : Except PyErr DFrame :=
  names.foldlM
    (fun result feature_name => do
      let range ← dictGet pr feature_name
      let col ← dictGet df feature_name
      pure (dfSetCol result feature_name (col.map (F range.1 range.2))))
    df

/-- `normalize_data`: maps each continuous column value `v` to
`(v - min) / (max - min)`; other columns are carried over unchanged in the
copied frame. -/
def normalize_data (d : PrivateData) (df : DFrame) : Except PyErr DFrame :=
  transformContinuousCols d.continuous_feature_names d.permitted_range normCell df

/-- `de_normalize_data`: maps each continuous column value `v` to
`v * (max - min) + min`; other columns are carried over unchanged in the
copied frame. -/
def de_normalize_data (d : PrivateData) (df : DFrame) : Except PyErr DFrame :=
  transformContinuousCols d.continuous_feature_names d.permitted_range deNormCell df

/-- `get_minx_maxx`: builds the all-zero and all-one vectors of length
`len(encoded_feature_names)` (an `AttributeError` when that attribute was
never assigned).  The `normalized=False` branch of the Python code refers to
the names `idx` and `feature_name`, which are not defined in the scope of the
method, so it raises `NameError` on the first of them. -/
def get_minx_maxx (d : PrivateData) (normalized : Bool) : Except PyErr (List ℚ × List ℚ) :=
  match d.encoded_feature_names with
  | none => Except.error (PyErr.attributeError "encoded_feature_names")
  | some enc =>
    let minx := List.replicate enc.length (0 : ℚ)
    let maxx := List.replicate enc.length (1 : ℚ)
    if normalized then Except.ok (minx, maxx)
    else Except.error (PyErr.nameError "idx")

/-- `get_mads_from_training_data`: returns the stored MAD list unchanged. -/
def get_mads_from_training_data (d : PrivateData) (_normalized : Bool) : List ℚ :=
  d.mad

/-- `get_encoded_categorical_feature_indexes`: for each categorical feature
name, the positions (first-occurrence indexes) of every encoded column whose
name starts with that feature name.  The attribute read of
`encoded_feature_names` happens inside the loop body, so an empty categorical
list returns `[]` without touching the attribute. -/
def get_encoded_categorical_feature_indexes (d : PrivateData) :
    Except PyErr (List (List Nat)) :=
  mapExcept
    (fun col_parent =>
      match d.encoded_feature_names with
      | none => Except.error (PyErr.attributeError "encoded_feature_names")
      | some enc =>
        Except.ok ((enc.filter (fun col => strStartsWith col col_parent)).map
          (fun col => enc.indexOf col)))
    d.categorical_feature_names

/-- `get_data_params`: the normalized min/max vectors, the encoded positions
of the continuous features (`range(len(continuous_feature_indexes))`), and the
per-categorical-feature groups of encoded one-hot column positions. -/
def get_data_params (d : PrivateData) :
    Except PyErr (List ℚ × List ℚ × List Nat × List (List Nat)) := do
  let mm ← get_minx_maxx d true
  let encoded_continuous_feature_indexes := List.range d.continuous_feature_indexes.length
  let encoded_categorical_feature_indexes ← get_encoded_categorical_feature_indexes d
  pure (mm.1, mm.2, encoded_continuous_feature_indexes, encoded_categorical_feature_indexes)

/-- The `features_to_vary` argument: the string sentinel `all` or a list of
raw feature names. -/
inductive FeaturesToVary where
  | all
  | names (fs : List String)

/-- `get_indexes_of_features_to_vary`: with the `all` sentinel, every index of
the encoded space.  The other branch of the Python code filters the encoded
names by `col.startswith(tuple(feature_list))`, but `feature_list` is not
defined anywhere in the program, so after the iterable
`enumerate(self.encoded_feature_names)` is read (an `AttributeError` when that
attribute was never assigned), evaluating the condition on the first element
raises `NameError`; with an empty encoded list the condition is never
evaluated and the comprehension yields `[]`. -/
def get_indexes_of_features_to_vary (d : PrivateData) (features_to_vary : FeaturesToVary) :
    Except PyErr (List Nat) :=
  match features_to_vary with
  | .all =>
    match d.encoded_feature_names with
    | none => Except.error (PyErr.attributeError "encoded_feature_names")
    | some enc => Except.ok (List.range enc.length)
  | .names _ =>
    match d.encoded_feature_names with
    | none => Except.error (PyErr.attributeError "encoded_feature_names")
    | some enc =>
      if enc.isEmpty then Except.ok []
      else Except.error (PyErr.nameError "feature_list")

/-- A decoded column: numeric values carried over, or reconstructed
categorical string values. -/
inductive ColData where
  | nums (vals : List ℚ)
  | strs (vals : List String)
deriving DecidableEq

/-- A data frame mixing numeric and string columns, as produced by
`from_dummies`. -/
abbrev MixedFrame : Type := List (String × ColData)

/-- Column assignment on a mixed frame (`out[l] = ...`). -/
def mfSetCol (df : MixedFrame) (name : String) (col : ColData) : MixedFrame :=
  if (List.any df (fun p => p.1 == name)) then
    List.map (fun p => if p.1 == name then (p.1, col) else p) df
  else df ++ [(name, col)]

/-- Dropping columns by name (`out.drop(cols, axis=1)`). -/
def mfDropCols (df : MixedFrame) (cols : List String) : MixedFrame :=
  df.filter (fun p => !(cols.contains p.1))

/-- Number of rows of a frame (the length of its first column). -/
def dfNumRows (df : DFrame) : Nat :=
  match df with
  | [] => 0
  | c :: _ => c.2.length

/-- `np.argmax` over a row, ties broken towards the first position; raises
`ValueError` on an empty row. -/
def argmaxAux : List ℚ → ℚ → Nat → Nat → Nat
  | [], _, best, _ => best
  | y :: ys, cur, best, i =>
    if cur < y then argmaxAux ys y i (i + 1) else argmaxAux ys cur best (i + 1)

/-- First-maximum index of a row (`np.argmax(..., axis=1)` per row). -/
def argmaxRow (xs : List ℚ) : Except PyErr Nat :=
  match xs with
  | [] => Except.error (PyErr.valueError "attempt to get argmax of an empty sequence")
  | x :: rest => Except.ok (argmaxAux rest x 0 1)

/-- `from_dummies`: for each categorical feature name `l`, collects the
columns of the INPUT frame whose name contains `l` followed by the separator
`_`, strips that pattern from the collected names to recover the level labels,
picks per row the label of the first maximal value, assigns the reconstructed
column under the name `l` and drops the collected columns from the running
output frame. -/
def from_dummies (d : PrivateData) (data : DFrame) : Except PyErr MixedFrame :=
  d.categorical_feature_names.foldlM
    (fun out l => do
      let cols := (data.map (fun p => p.1)).filter (fun c => strContains c (l ++ "_"))
      let labs := cols.map (fun c => pyReplaceAll c (l ++ "_"))
      let colvals := cols.map (fun c => (lookupAssoc data c).getD [])
      let rows := (List.range (dfNumRows data)).map (fun i => colvals.map (fun cv => cv.getD i 0))
      let picked ← mapExcept (fun row => do
        let j ← argmaxRow row
        pure (labs.getD j "")) rows
      pure (mfDropCols (mfSetCol out l (ColData.strs picked)) cols))
    (data.map (fun p => (p.1, ColData.nums p.2)))

/-- Input of `get_decoded_data`: a raw numeric matrix (`np.ndarray`) or an
already labelled frame. -/
inductive DecodeInput where
  | ndarray (rows : List (List ℚ))
  | frame (df : DFrame)

/-- `get_decoded_data`: a raw matrix is first turned into a frame labelled
with `encoded_feature_names` (an `AttributeError` when that attribute was
never assigned), then decoded with `from_dummies`. -/
def get_decoded_data (d : PrivateData) : DecodeInput → Except PyErr MixedFrame
  | .ndarray rows =>
    match d.encoded_feature_names with
    | none => Except.error (PyErr.attributeError "encoded_feature_names")
    | some enc =>
      from_dummies d (enc.enum.map (fun p => (p.2, rows.map (fun r => r.getD p.1 0))))
  | .frame df => from_dummies d df

/-- Value read by `get_decimal_precisions` for one continuous feature: `0`
for the string `int`, otherwise the declared decimal-place count
(`type_and_precision[feature_name][1]`). -/
def precOf : TypePrec → Nat
  | .int => 0
  | .floatPrec places => places

/-- `get_decimal_precisions`: starts from `[0] * len(feature_names)` and, for
`ix, feature_name` in `enumerate(continuous_feature_names)`, writes the
precision of `feature_name` at position `ix` (dictionary access raising
`KeyError` when `type_and_precision` has no entry for the feature). -/
def get_decimal_precisions (d : PrivateData) : Except PyErr (List Nat) :=
  d.continuous_feature_names.enum.foldlM
    (fun precisions p => do
      let type_prec ← dictGet d.type_and_precision p.2
      pure (precisions.set p.1 (precOf type_prec)))
    (List.replicate d.feature_names.length 0)

/-- Placeholder schema used only to extract the value of a successful
constructor call. -/
def emptyPrivateData : PrivateData :=
  { outcome_name := ""
    type_and_precision := []
    mad := []
    continuous_feature_names := []
    permitted_range := []
    categorical_feature_names := []
    categorical_levels := []
    feature_names := []
    continuous_feature_indexes := []
    categorical_feature_indexes := []
    encoded_feature_names := none }

/-- The schema built by a constructor call that is known to succeed. -/
def schemaOf (p : Params) : PrivateData :=
  (mkPrivateData p).toOption.getD emptyPrivateData

/-- Example parameters from the specification: continuous `age` with range
`[18, 65]` and categorical `color` with levels `red`, `green`, `blue`. -/
def paramsEx : Params :=
  { features := FeaturesArg.dict
      [("age", FeatureDecl.cont 18 65), ("color", FeatureDecl.cat ["red", "green", "blue"])]
    outcome_name := OutcomeArg.str "income"
    type_and_precision := none
    mad := none }

/-- The schema of `paramsEx`. -/
def dEx : PrivateData := schemaOf paramsEx

/-- Parameters declaring only continuous features. -/
def paramsAllCont : Params :=
  { features := FeaturesArg.dict [("age", FeatureDecl.cont 18 65)]
    outcome_name := OutcomeArg.str "income"
    type_and_precision := none
    mad := none }

/-- The schema of `paramsAllCont`: no categorical feature is declared, so the
constructor never assigns `encoded_feature_names`. -/
def dAllCont : PrivateData := schemaOf paramsAllCont

/-- Parameters with two categorical features one of whose names is a proper
prefix of the other. -/
def paramsPre : Params :=
  { features := FeaturesArg.dict
      [("color", FeatureDecl.cat ["g", "r"]), ("colorful", FeatureDecl.cat ["a"])]
    outcome_name := OutcomeArg.str "income"
    type_and_precision := none
    mad := none }

/-- The schema of `paramsPre`. -/
def dPre : PrivateData := schemaOf paramsPre

/-- Parameters declaring a categorical feature before a continuous one, with
an explicit float precision for the continuous feature. -/
def paramsMixed : Params :=
  { features := FeaturesArg.dict
      [("color", FeatureDecl.cat ["red", "green"]), ("age", FeatureDecl.cont 18 65)]
    outcome_name := OutcomeArg.str "income"
    type_and_precision := some [("age", TypePrec.floatPrec 2)]
    mad := none }

/-- The schema of `paramsMixed`. -/
def dMixed : PrivateData := schemaOf paramsMixed

/-- Parameters with two continuous features and a type-and-precision map
covering only the first of them. -/
def paramsPartialTP : Params :=
  { features := FeaturesArg.dict
      [("a", FeatureDecl.cont 0 10), ("b", FeatureDecl.cont 0 5), ("c", FeatureDecl.cat ["x", "y"])]
    outcome_name := OutcomeArg.str "income"
    type_and_precision := some [("a", TypePrec.floatPrec 2)]
    mad := none }

/-- The schema of `paramsPartialTP`. -/
def dPartialTP : PrivateData := schemaOf paramsPartialTP

/-- Parameters with a continuous feature declared first (covered by an
explicit float precision) and a categorical feature declared second. -/
def paramsFloatTP : Params :=
  { features := FeaturesArg.dict
      [("a", FeatureDecl.cont 0 10), ("c", FeatureDecl.cat ["x", "y"])]
    outcome_name := OutcomeArg.str "income"
    type_and_precision := some [("a", TypePrec.floatPrec 2)]
    mad := none }

/-- The schema of `paramsFloatTP`. -/
def dFloatTP : PrivateData := schemaOf paramsFloatTP

/-- The one-hot columns belonging to a categorical feature of a schema: its
levels in sorted order, each appended to the feature name with an
underscore.  These are the columns the encoded layout reserves for the
feature. -/
def ownCols (d : PrivateData) (f : String) : List String :=
  (sortedLevels ((lookupAssoc d.categorical_levels f).getD [])).map
    (fun category => f ++ "_" ++ category)

/-- Proof-side description of the frames produced by `normalize_data` and
`de_normalize_data`: every column named by `names` is transformed cell-wise
with the permitted range of its own name, every other column is untouched. -/
def updCols (names : List String) (pr : List (String × (ℚ × ℚ)))
    (F : ℚ → ℚ → ℚ → ℚ) (df : DFrame) : DFrame :=
  df.map (fun p =>
    if p.1 ∈ names then
      (p.1, p.2.map
        (F ((lookupAssoc pr p.1).getD (0, 0)).1 ((lookupAssoc pr p.1).getD (0, 0)).2))
    else p)

/-- Test whether a constructor result is the configuration error of the
module (the `ValueError` raised by the failed type checks). -/
def raisesValueError : Except PyErr PrivateData → Bool
  | Except.error (PyErr.valueError _) => true
  | _ => false

-- Decidable equality of modelled Python results, used to evaluate the model
-- on concrete inputs.
deriving instance DecidableEq for Except

/-- A monadic fold over `Except` whose step never fails computes the
corresponding pure fold. -/
theorem foldlM_ok {α β : Type} {ε : Type} (f : β → α → Except ε β) (g : β → α → β)
    (l : List α) (b : β) (h : ∀ a ∈ l, ∀ acc, f acc a = Except.ok (g acc a)) :
    l.foldlM f b = Except.ok (l.foldl g b) := by
  induction l generalizing b with
  | nil => rfl
  | cons a l ih =>
    have ha : f b a = Except.ok (g b a) := h a (List.mem_cons_self a l) b
    have hrest : ∀ x ∈ l, ∀ acc, f acc x = Except.ok (g acc x) :=
      fun x hx acc => h x (List.mem_cons_of_mem a hx) acc
    calc (a :: l).foldlM f b = f b a >>= fun b2 => l.foldlM f b2 := by
          simp [List.foldlM_cons]
      _ = l.foldlM f (g b a) := by rw [ha]; rfl
      _ = Except.ok (l.foldl g (g b a)) := ih (g b a) hrest
      _ = Except.ok ((a :: l).foldl g b) := by simp [List.foldl_cons]

/-- A monadic map over `Except` whose function never fails computes the
corresponding pure map. -/
theorem mapExcept_ok {α β ε : Type} (f : α → Except ε β) (g : α → β)
    (l : List α) (h : ∀ a ∈ l, f a = Except.ok (g a)) :
    mapExcept f l = Except.ok (l.map g) := by
  induction l with
  | nil => rfl
  | cons a l ih =>
    have ha : f a = Except.ok (g a) := h a (List.mem_cons_self a l)
    have hrest := ih (fun x hx => h x (List.mem_cons_of_mem a hx))
    simp only [mapExcept, ha, hrest]
    rfl

/-- Sorting the levels does not change how many there are. -/
theorem length_insertSorted (x : String) (l : List String) :
    (insertSorted x l).length = l.length + 1 := by
  induction l with
  | nil => rfl
  | cons y ys ih =>
    by_cases h : strLE x y = true
    · simp [insertSorted, h]
    · simp [insertSorted, h, ih]

/-- Sorting the levels does not change how many there are. -/
theorem length_sortedLevels (l : List String) :
    (sortedLevels l).length = l.length := by
  induction l with
  | nil => rfl
  | cons x xs ih => simp [sortedLevels, length_insertSorted, ih]

/-- Length of a flat map is the sum of the lengths of the pieces. -/
theorem length_flatMap_eq {α β : Type} (f : α → List β) (l : List α) :
    (l.flatMap f).length = (l.map (fun a => (f a).length)).sum := by
  induction l with
  | nil => rfl
  | cons a l ih => simp [List.flatMap_cons, ih]

/-- Dropping from a replicated list leaves a replicated list. -/
theorem drop_replicate_eq {α : Type} (a : α) (m n : Nat) :
    (List.replicate m a).drop n = List.replicate (m - n) a := by
  induction n generalizing m with
  | zero => simp
  | succ n ih =>
    cases m with
    | zero => simp
    | succ m => simpa [List.replicate_succ] using ih m

/-- Successful dictionary access agrees with the optional lookup. -/
theorem dictGet_eq_ok_iff {α : Type} (l : List (String × α)) (k : String) (v : α) :
    dictGet l k = Except.ok v ↔ lookupAssoc l k = some v := by
  unfold dictGet lookupAssoc
  cases h : l.find? (fun p => p.1 == k) with
  | none => simp
  | some p => simp

/-- In an association list whose keys are distinct, each stored pair is the
one its key finds. -/
theorem lookupAssoc_eq_of_mem {α : Type} (l : List (String × α)) (k : String) (v : α)
    (hnd : (l.map (fun p => p.1)).Nodup) (hmem : (k, v) ∈ l) :
    lookupAssoc l k = some v := by
  induction l with
  | nil => simp at hmem
  | cons p l ih =>
    rcases List.mem_cons.mp hmem with h | h
    · subst h
      simp [lookupAssoc, List.find?_cons]
    · have hk : p.1 ≠ k := by
        intro hpk
        have : k ∈ l.map (fun q => q.1) := List.mem_map_of_mem _ h
        rw [List.map_cons, List.nodup_cons] at hnd
        exact hnd.1 (hpk ▸ this)
      have hnd2 : (l.map (fun q => q.1)).Nodup := by
        rw [List.map_cons, List.nodup_cons] at hnd
        exact hnd.2
      have := ih hnd2 h
      simpa [lookupAssoc, List.find?_cons, beq_eq_false_iff_ne.mpr hk] using this

/-- Looking up any declared continuous feature in the all-`int` default map
yields `int`. -/
theorem lookupAssoc_map_int (names : List String) (f : String) (hf : f ∈ names) :
    lookupAssoc (names.map (fun n => (n, TypePrec.int))) f = some TypePrec.int := by
  induction names with
  | nil => simp at hf
  | cons n ns ih =>
    by_cases h : n = f
    · subst h
      simp [lookupAssoc, List.find?_cons]
    · rcases List.mem_cons.mp hf with h2 | h2
      · exact absurd h2.symm h
      · simpa [lookupAssoc, List.find?_cons, beq_eq_false_iff_ne.mpr h] using ih h2

/-- Keys present in an association list make the lookup succeed. -/
theorem lookupAssoc_isSome_of_mem {α : Type} (l : List (String × α)) (k : String)
    (hmem : k ∈ l.map (fun p => p.1)) :
    (lookupAssoc l k).isSome := by
  induction l with
  | nil => simp at hmem
  | cons p l ih =>
    by_cases h : p.1 = k
    · simp [lookupAssoc, List.find?_cons, h]
    · rcases List.mem_map.mp hmem with ⟨q, hq, hqk⟩
      rcases List.mem_cons.mp hq with rfl | hq2
      · exact absurd hqk h
      · have : k ∈ l.map (fun p => p.1) := hqk ▸ List.mem_map_of_mem _ hq2
        simpa [lookupAssoc, List.find?_cons, beq_eq_false_iff_ne.mpr h] using ih this

/-- Unpacking a successful constructor call: the classification loop did not
raise, and the result is the assembled schema. -/
theorem mk_ok_build {fs : List (String × FeatureDecl)} {o : String}
    {tp : Option (List (String × TypePrec))} {m : Option (List ℚ)} {d : PrivateData}
    (hd : mkPrivateData ⟨FeaturesArg.dict fs, OutcomeArg.str o, tp, m⟩ = Except.ok d) :
    hasEmptyDecl fs = false ∧
      d = buildSchema fs o (tp.getD []) (m.getD (List.replicate fs.length (1 : ℚ))) := by
  unfold mkPrivateData at hd
  by_cases h : hasEmptyDecl fs
  · simp [h] at hd
  · simp only [h] at hd
    simp only [Bool.false_eq_true, if_false, Except.ok.injEq] at hd
    exact ⟨by simpa using h, hd.symm⟩

/-- Field equation of the assembled schema. -/
theorem buildSchema_continuous_feature_names (fs : List (String × FeatureDecl)) (o : String)
    (tp : List (String × TypePrec)) (m : List ℚ) :
    (buildSchema fs o tp m).continuous_feature_names
      = (fs.filter (fun p => p.2.isCont)).map (fun p => p.1) := rfl

/-- Field equation of the assembled schema. -/
theorem buildSchema_permitted_range (fs : List (String × FeatureDecl)) (o : String)
    (tp : List (String × TypePrec)) (m : List ℚ) :
    (buildSchema fs o tp m).permitted_range
      = (fs.filter (fun p => p.2.isCont)).map (fun p => (p.1, p.2.rangeOf)) := rfl

/-- Field equation of the assembled schema. -/
theorem buildSchema_categorical_feature_names (fs : List (String × FeatureDecl)) (o : String)
    (tp : List (String × TypePrec)) (m : List ℚ) :
    (buildSchema fs o tp m).categorical_feature_names
      = (fs.filter (fun p => !p.2.isCont)).map (fun p => p.1) := rfl

/-- Field equation of the assembled schema. -/
theorem buildSchema_categorical_levels (fs : List (String × FeatureDecl)) (o : String)
    (tp : List (String × TypePrec)) (m : List ℚ) :
    (buildSchema fs o tp m).categorical_levels
      = (fs.filter (fun p => !p.2.isCont)).map (fun p => (p.1, p.2.levelsOf)) := rfl

/-- Field equation of the assembled schema. -/
theorem buildSchema_feature_names (fs : List (String × FeatureDecl)) (o : String)
    (tp : List (String × TypePrec)) (m : List ℚ) :
    (buildSchema fs o tp m).feature_names = fs.map (fun p => p.1) := rfl

/-- Field equation of the assembled schema. -/
theorem buildSchema_continuous_feature_indexes (fs : List (String × FeatureDecl)) (o : String)
    (tp : List (String × TypePrec)) (m : List ℚ) :
    (buildSchema fs o tp m).continuous_feature_indexes
      = (((buildSchema fs o tp m).continuous_feature_names.filter
            (fun n => (buildSchema fs o tp m).feature_names.contains n)).map
          (fun n => (buildSchema fs o tp m).feature_names.indexOf n)) := rfl

/-- Field equation of the assembled schema. -/
theorem buildSchema_encoded_feature_names (fs : List (String × FeatureDecl)) (o : String)
    (tp : List (String × TypePrec)) (m : List ℚ) :
    (buildSchema fs o tp m).encoded_feature_names
      = (if (buildSchema fs o tp m).categorical_feature_names.length > 0 then
          some ((buildSchema fs o tp m).continuous_feature_names ++
            (buildSchema fs o tp m).categorical_feature_names.flatMap (fun fname =>
              (sortedLevels
                  ((lookupAssoc (buildSchema fs o tp m).categorical_levels fname).getD [])).map
                (fun category => fname ++ "_" ++ category)))
        else none) := rfl

/-- Field equation of the assembled schema. -/
theorem buildSchema_type_and_precision (fs : List (String × FeatureDecl)) (o : String)
    (tp : List (String × TypePrec)) (m : List ℚ) :
    (buildSchema fs o tp m).type_and_precision
      = (if tp.length = 0 then
          (buildSchema fs o tp m).continuous_feature_names.map (fun f => (f, TypePrec.int))
        else tp) := rfl

/-- Transforming columns does not change the column names. -/
theorem updCols_keys (names : List String) (pr : List (String × (ℚ × ℚ)))
    (F : ℚ → ℚ → ℚ → ℚ) (df : DFrame) :
    (updCols names pr F df).map (fun p => p.1) = df.map (fun p => p.1) := by
  unfold updCols
  rw [List.map_map]
  apply List.map_congr_left
  intro p hp
  by_cases h : p.1 ∈ names <;> simp [h]

/-- Transforming no columns is the identity. -/
theorem updCols_nil (pr : List (String × (ℚ × ℚ))) (F : ℚ → ℚ → ℚ → ℚ) (df : DFrame) :
    updCols [] pr F df = df := by
  unfold updCols
  simp

/-- One assignment step of the normalization loop, described on the
transformed frame: assigning the transformed column of `f` extends the set of
transformed columns by `f`. -/
theorem dfSetCol_updCols (names : List String) (pr : List (String × (ℚ × ℚ)))
    (F : ℚ → ℚ → ℚ → ℚ) (df : DFrame) (f : String)
    (hnd : (df.map (fun p => p.1)).Nodup) (hf : f ∈ df.map (fun p => p.1)) :
    dfSetCol (updCols names pr F df) f
        (((lookupAssoc df f).getD []).map
          (F ((lookupAssoc pr f).getD (0, 0)).1 ((lookupAssoc pr f).getD (0, 0)).2))
      = updCols (names ++ [f]) pr F df := by
  have hany : List.any (updCols names pr F df) (fun p => p.1 == f) = true := by
    rw [List.any_eq_true]
    have hf2 : f ∈ (updCols names pr F df).map (fun p => p.1) := by
      rw [updCols_keys]
      exact hf
    rcases List.mem_map.mp hf2 with ⟨q, hq, hqf⟩
    exact ⟨q, hq, by simp [hqf]⟩
  unfold dfSetCol
  rw [if_pos hany]
  unfold updCols
  rw [List.map_map]
  apply List.map_congr_left
  intro p hp
  by_cases hpf : p.1 = f
  · subst hpf
    have hlook : lookupAssoc df p.1 = some p.2 :=
      lookupAssoc_eq_of_mem df p.1 p.2 hnd (by simpa using hp)
    by_cases hmem : p.1 ∈ names
    · simp [hmem, hlook, Function.comp]
    · simp [hmem, hlook, Function.comp]
  · by_cases hmem : p.1 ∈ names <;>
      simp [hmem, hpf, Function.comp]

/-- The assignment loop shared by `normalize_data` and `de_normalize_data`,
described on the transformed frame. -/
theorem foldl_dfSetCol_updCols (pr : List (String × (ℚ × ℚ))) (F : ℚ → ℚ → ℚ → ℚ)
    (df : DFrame) (hnd : (df.map (fun p => p.1)).Nodup) :
    ∀ (names S : List String), (∀ f ∈ names, f ∈ df.map (fun p => p.1)) →
      names.foldl
        (fun acc f => dfSetCol acc f
          (((lookupAssoc df f).getD []).map
            (F ((lookupAssoc pr f).getD (0, 0)).1 ((lookupAssoc pr f).getD (0, 0)).2)))
        (updCols S pr F df)
      = updCols (S ++ names) pr F df := by
  intro names
  induction names with
  | nil => intro S _; simp
  | cons f rest ih =>
    intro S hpres
    have hstep := dfSetCol_updCols S pr F df f hnd (hpres f (List.mem_cons_self f rest))
    calc (f :: rest).foldl _ (updCols S pr F df)
        = rest.foldl _ (dfSetCol (updCols S pr F df) f
            (((lookupAssoc df f).getD []).map
              (F ((lookupAssoc pr f).getD (0, 0)).1 ((lookupAssoc pr f).getD (0, 0)).2))) := by
          rw [List.foldl_cons]
      _ = rest.foldl _ (updCols (S ++ [f]) pr F df) := by rw [hstep]
      _ = updCols ((S ++ [f]) ++ rest) pr F df :=
          ih (S ++ [f]) (fun g hg => hpres g (List.mem_cons_of_mem f hg))
      _ = updCols (S ++ f :: rest) pr F df := by
          rw [List.append_assoc, List.singleton_append]

/-- Characterization of the shared normalization loop: when every named
column is present in the frame (whose column names are distinct) and every
named feature has a permitted range, the loop succeeds and transforms exactly
the named columns, each with its own range. -/
theorem transformContinuousCols_ok (names : List String) (pr : List (String × (ℚ × ℚ)))
    (F : ℚ → ℚ → ℚ → ℚ) (df : DFrame)
    (hnd : (df.map (fun p => p.1)).Nodup)
    (hpres : ∀ f ∈ names, f ∈ df.map (fun p => p.1))
    (hpr : ∀ f ∈ names, (lookupAssoc pr f).isSome = true) :
    transformContinuousCols names pr F df = Except.ok (updCols names pr F df) := by
  unfold transformContinuousCols
  have hstep : ∀ f ∈ names, ∀ acc : DFrame,
      (do
        let range ← dictGet pr f
        let col ← dictGet df f
        pure (dfSetCol acc f (col.map (F range.1 range.2))))
      = Except.ok (dfSetCol acc f
          (((lookupAssoc df f).getD []).map
            (F ((lookupAssoc pr f).getD (0, 0)).1 ((lookupAssoc pr f).getD (0, 0)).2))) := by
    intro f hf acc
    rcases Option.isSome_iff_exists.mp (hpr f hf) with ⟨r, hr⟩
    rcases Option.isSome_iff_exists.mp (lookupAssoc_isSome_of_mem df f (hpres f hf)) with ⟨c, hc⟩
    have h1 : dictGet pr f = Except.ok r := (dictGet_eq_ok_iff pr f r).mpr hr
    have h2 : dictGet df f = Except.ok c := (dictGet_eq_ok_iff df f c).mpr hc
    simp only [h1, h2, hr, hc, Option.getD_some]
    rfl
  rw [foldlM_ok _ _ names df hstep]
  have := foldl_dfSetCol_updCols pr F df hnd names [] hpres
  rw [updCols_nil] at this
  rw [this]
  simp

/-- Every continuous feature of an assembled schema has a permitted range. -/
theorem schema_range_isSome (fs : List (String × FeatureDecl)) (o : String)
    (tp : List (String × TypePrec)) (m : List ℚ) :
    ∀ f ∈ (buildSchema fs o tp m).continuous_feature_names,
      (lookupAssoc (buildSchema fs o tp m).permitted_range f).isSome = true := by
  intro f hf
  apply lookupAssoc_isSome_of_mem
  rw [buildSchema_permitted_range, List.map_map]
  rw [buildSchema_continuous_feature_names] at hf
  exact hf

/-- Transforming twice with mutually inverse cell formulas restores the frame. -/
theorem updCols_inverse (names : List String) (pr : List (String × (ℚ × ℚ)))
    (F G : ℚ → ℚ → ℚ → ℚ) (df : DFrame)
    (h : ∀ f ∈ names, ∀ v : ℚ,
      G ((lookupAssoc pr f).getD (0, 0)).1 ((lookupAssoc pr f).getD (0, 0)).2
        (F ((lookupAssoc pr f).getD (0, 0)).1 ((lookupAssoc pr f).getD (0, 0)).2 v) = v) :
    updCols names pr G (updCols names pr F df) = df := by
  unfold updCols
  rw [List.map_map]
  have hpt : ∀ p ∈ df,
      ((fun p : String × List ℚ =>
          if p.1 ∈ names then
            (p.1, p.2.map
              (G ((lookupAssoc pr p.1).getD (0, 0)).1 ((lookupAssoc pr p.1).getD (0, 0)).2))
          else p) ∘
        (fun p : String × List ℚ =>
          if p.1 ∈ names then
            (p.1, p.2.map
              (F ((lookupAssoc pr p.1).getD (0, 0)).1 ((lookupAssoc pr p.1).getD (0, 0)).2))
          else p)) p = p := by
    intro p hp
    by_cases hmem : p.1 ∈ names
    · simp only [Function.comp_apply, if_pos hmem, List.map_map]
      have : p.2.map
          ((G ((lookupAssoc pr p.1).getD (0, 0)).1 ((lookupAssoc pr p.1).getD (0, 0)).2) ∘
            (F ((lookupAssoc pr p.1).getD (0, 0)).1 ((lookupAssoc pr p.1).getD (0, 0)).2))
          = p.2 := by
        have hid : ∀ v ∈ p.2,
            ((G ((lookupAssoc pr p.1).getD (0, 0)).1 ((lookupAssoc pr p.1).getD (0, 0)).2) ∘
              (F ((lookupAssoc pr p.1).getD (0, 0)).1 ((lookupAssoc pr p.1).getD (0, 0)).2)) v
              = id v := fun v _ => h p.1 hmem v
        rw [List.map_congr_left hid]
        simp
      rw [this]
    · simp only [Function.comp_apply, if_neg hmem]
  rw [List.map_congr_left hpt]
  simp

/-- C3.  On a frame with distinct column names containing every continuous
feature column, `normalize_data` succeeds, and it returns the frame in which
every continuous feature column cell `v` is replaced by
`(v - min) / (max - min)` with the permitted range of that feature, while
every other column is unchanged.  Because it operates on a copy (modelled by
it being a pure function of the input frame), the input table is not
modified. -/
theorem C3_normalize_data_spec
    (fs : List (String × FeatureDecl)) (o : String) (tp : Option (List (String × TypePrec)))
    (m : Option (List ℚ)) (d : PrivateData)
    (hd : mkPrivateData ⟨FeaturesArg.dict fs, OutcomeArg.str o, tp, m⟩ = Except.ok d)
    (df : DFrame)
    (hcols : (df.map (fun p => p.1)).Nodup)
    (hpres : ∀ f ∈ d.continuous_feature_names, f ∈ df.map (fun p => p.1)) :
    normalize_data d df = Except.ok (df.map (fun p =>
      if p.1 ∈ d.continuous_feature_names then
        (p.1, p.2.map (fun v =>
          (v - ((lookupAssoc d.permitted_range p.1).getD (0, 0)).1) /
            (((lookupAssoc d.permitted_range p.1).getD (0, 0)).2 -
              ((lookupAssoc d.permitted_range p.1).getD (0, 0)).1)))
      else p)) := by
  obtain ⟨-, rfl⟩ := mk_ok_build hd
  unfold normalize_data
  rw [transformContinuousCols_ok _ _ _ df hcols hpres (by
    intro f hf
    exact schema_range_isSome fs o _ _ f hf)]
  rfl

/-- Witness for C3 at the example of the specification: the feature `age`
with permitted range `[18, 65]` maps `18` to `0`, `65` to `1` and `41.5` to
`0.5`, and the one-hot column `color_red` is unchanged. -/
theorem C3_normalize_data_spec_witness :
    normalize_data dEx [("age", [18, 65, 41.5]), ("color_red", [1, 0, 0])]
      = Except.ok [("age", [0, 1, (1 : ℚ) / 2]), ("color_red", [1, 0, 0])] := by
  have h := C3_normalize_data_spec
    [("age", FeatureDecl.cont 18 65), ("color", FeatureDecl.cat ["red", "green", "blue"])]
    "income" none none dEx (by rfl)
    [("age", [18, 65, 41.5]), ("color_red", [1, 0, 0])]
    (by decide) (by decide)
  rw [h]
  norm_num [show dEx.continuous_feature_names = ["age"] from rfl,
    show lookupAssoc dEx.permitted_range "age" = some (18, 65) from rfl]
  intro hct
  exact absurd hct (by decide)

/-- C2.  On a frame with distinct column names containing every continuous
feature column, when every continuous feature has a permitted range with
`min` distinct from `max` and all values of the continuous columns lie in
their ranges, normalizing and then de-normalizing returns the original frame,
and so does de-normalizing and then normalizing: over exact rational
arithmetic (the model of the floating-point tolerance) the two transforms are
mutually inverse on the continuous columns. -/
theorem C2_normalize_denormalize_roundtrip
    (fs : List (String × FeatureDecl)) (o : String) (tp : Option (List (String × TypePrec)))
    (m : Option (List ℚ)) (d : PrivateData)
    (hd : mkPrivateData ⟨FeaturesArg.dict fs, OutcomeArg.str o, tp, m⟩ = Except.ok d)
    (df : DFrame)
    (hcols : (df.map (fun p => p.1)).Nodup)
    (hpres : ∀ f ∈ d.continuous_feature_names, f ∈ df.map (fun p => p.1))
    (hne : ∀ f ∈ d.continuous_feature_names,
      ((lookupAssoc d.permitted_range f).getD (0, 0)).1
        ≠ ((lookupAssoc d.permitted_range f).getD (0, 0)).2)
    (hin : ∀ f ∈ d.continuous_feature_names, ∀ p ∈ df, p.1 = f → ∀ v ∈ p.2,
      ((lookupAssoc d.permitted_range f).getD (0, 0)).1 ≤ v ∧
        v ≤ ((lookupAssoc d.permitted_range f).getD (0, 0)).2) :
    (normalize_data d df).bind (fun df2 => de_normalize_data d df2) = Except.ok df ∧
      (de_normalize_data d df).bind (fun df2 => normalize_data d df2) = Except.ok df := by
  obtain ⟨-, rfl⟩ := mk_ok_build hd
  set d := buildSchema fs o (tp.getD []) (m.getD (List.replicate fs.length (1 : ℚ))) with hdDef
  have hpr : ∀ f ∈ d.continuous_feature_names, (lookupAssoc d.permitted_range f).isSome = true :=
    fun f hf => schema_range_isSome fs o _ _ f hf
  have hsub : ∀ f ∈ d.continuous_feature_names,
      ((lookupAssoc d.permitted_range f).getD (0, 0)).2
        - ((lookupAssoc d.permitted_range f).getD (0, 0)).1 ≠ 0 :=
    fun f hf => sub_ne_zero_of_ne (Ne.symm (hne f hf))
  have hN := transformContinuousCols_ok d.continuous_feature_names d.permitted_range
    normCell df hcols hpres hpr
  have hD := transformContinuousCols_ok d.continuous_feature_names d.permitted_range
    deNormCell df hcols hpres hpr
  have hkeysN : (updCols d.continuous_feature_names d.permitted_range normCell df).map
      (fun p => p.1) = df.map (fun p => p.1) := updCols_keys _ _ _ _
  have hkeysD : (updCols d.continuous_feature_names d.permitted_range deNormCell df).map
      (fun p => p.1) = df.map (fun p => p.1) := updCols_keys _ _ _ _
  have hN2 := transformContinuousCols_ok d.continuous_feature_names d.permitted_range
    normCell (updCols d.continuous_feature_names d.permitted_range deNormCell df)
    (by rw [hkeysD]; exact hcols) (by rw [hkeysD]; exact hpres) hpr
  have hD2 := transformContinuousCols_ok d.continuous_feature_names d.permitted_range
    deNormCell (updCols d.continuous_feature_names d.permitted_range normCell df)
    (by rw [hkeysN]; exact hcols) (by rw [hkeysN]; exact hpres) hpr
  have hinv1 : updCols d.continuous_feature_names d.permitted_range deNormCell
      (updCols d.continuous_feature_names d.permitted_range normCell df) = df := by
    apply updCols_inverse
    intro f hf v
    have h0 := hsub f hf
    set mn := ((lookupAssoc d.permitted_range f).getD (0, 0)).1 with hmn
    set mx := ((lookupAssoc d.permitted_range f).getD (0, 0)).2 with hmx
    unfold normCell deNormCell
    rw [div_mul_cancel₀ _ h0]
    ring
  have hinv2 : updCols d.continuous_feature_names d.permitted_range normCell
      (updCols d.continuous_feature_names d.permitted_range deNormCell df) = df := by
    apply updCols_inverse
    intro f hf v
    have h0 := hsub f hf
    set mn := ((lookupAssoc d.permitted_range f).getD (0, 0)).1 with hmn
    set mx := ((lookupAssoc d.permitted_range f).getD (0, 0)).2 with hmx
    unfold normCell deNormCell
    have h1 : v * (mx - mn) + mn - mn = v * (mx - mn) := by ring
    rw [h1, mul_div_cancel_right₀ _ h0]
  constructor
  · show (normalize_data d df).bind (fun df2 => de_normalize_data d df2) = Except.ok df
    unfold normalize_data de_normalize_data
    rw [hN]
    show transformContinuousCols _ _ _ _ = _
    rw [hD2, hinv1]
  · show (de_normalize_data d df).bind (fun df2 => normalize_data d df2) = Except.ok df
    unfold normalize_data de_normalize_data
    rw [hD]
    show transformContinuousCols _ _ _ _ = _
    rw [hN2, hinv2]

/-- Witness for C2 on the example schema: the `age` column with values inside
the permitted range `[18, 65]` survives the round trip in both directions. -/
theorem C2_normalize_denormalize_roundtrip_witness :
    (normalize_data dEx [("age", [18, 30, 65])]).bind
        (fun df2 => de_normalize_data dEx df2) = Except.ok [("age", [18, 30, 65])] ∧
      (de_normalize_data dEx [("age", [18, 30, 65])]).bind
        (fun df2 => normalize_data dEx df2) = Except.ok [("age", [18, 30, 65])] :=
  C2_normalize_denormalize_roundtrip
    [("age", FeatureDecl.cont 18 65), ("color", FeatureDecl.cat ["red", "green", "blue"])]
    "income" none none dEx (by rfl)
    [("age", [18, 30, 65])]
    (by decide) (by decide) (by decide) (by decide)

/-- C9.  Construction raises the configuration error (`ValueError`), building
no schema, exactly when the features argument is not a dictionary or the
outcome name is not a string; with a dictionary and a string both type checks
pass (the only other possible failure is the `IndexError` of the
classification loop, which is not a configuration error). -/
theorem C9_constructor_type_checks (p : Params) :
    raisesValueError (mkPrivateData p) = true
      ↔ (p.features.isDict = false ∨ p.outcome_name.isStr = false) := by
  rcases p with ⟨f, oc, tp, m⟩
  cases f with
  | nonDict => simp [mkPrivateData, raisesValueError, FeaturesArg.isDict]
  | dict fs =>
    cases oc with
    | nonStr => simp [mkPrivateData, raisesValueError, FeaturesArg.isDict, OutcomeArg.isStr]
    | str o =>
      by_cases h : hasEmptyDecl fs
      · simp [mkPrivateData, raisesValueError, FeaturesArg.isDict, OutcomeArg.isStr, h]
      · simp [mkPrivateData, raisesValueError, FeaturesArg.isDict, OutcomeArg.isStr, h]

/-- C10.  A schema declared with only continuous features never assigns
`encoded_feature_names`, and every operation that reads that attribute fails
with an `AttributeError` instead of treating the encoded space as the
continuous columns: `get_minx_maxx` with either flag, `get_data_params`,
both branches of `get_indexes_of_features_to_vary`, and the decoding of a raw
matrix by `get_decoded_data`. -/
theorem C10_no_encoded_without_categoricals
    (fs : List (String × FeatureDecl)) (o : String) (tp : Option (List (String × TypePrec)))
    (m : Option (List ℚ)) (d : PrivateData)
    (hd : mkPrivateData ⟨FeaturesArg.dict fs, OutcomeArg.str o, tp, m⟩ = Except.ok d)
    (hallcont : ∀ q ∈ fs, q.2.isCont = true) :
    d.encoded_feature_names = none ∧
      (∀ b, get_minx_maxx d b = Except.error (PyErr.attributeError "encoded_feature_names")) ∧
      get_data_params d = Except.error (PyErr.attributeError "encoded_feature_names") ∧
      get_indexes_of_features_to_vary d FeaturesToVary.all
        = Except.error (PyErr.attributeError "encoded_feature_names") ∧
      (∀ l, get_indexes_of_features_to_vary d (FeaturesToVary.names l)
        = Except.error (PyErr.attributeError "encoded_feature_names")) ∧
      (∀ rows, get_decoded_data d (DecodeInput.ndarray rows)
        = Except.error (PyErr.attributeError "encoded_feature_names")) := by
  obtain ⟨-, rfl⟩ := mk_ok_build hd
  have hfil : fs.filter (fun p => !p.2.isCont) = [] := by
    rw [List.filter_eq_nil_iff]
    intro p hp
    simp [hallcont p hp]
  have henc : (buildSchema fs o (tp.getD [])
      (m.getD (List.replicate fs.length (1 : ℚ)))).encoded_feature_names = none := by
    rw [buildSchema_encoded_feature_names, buildSchema_categorical_feature_names, hfil]
    simp
  refine ⟨henc, ?_, ?_, ?_, ?_, ?_⟩
  · intro b
    unfold get_minx_maxx
    rw [henc]
  · unfold get_data_params get_minx_maxx
    rw [henc]
    rfl
  · unfold get_indexes_of_features_to_vary
    rw [henc]
  · intro l
    unfold get_indexes_of_features_to_vary
    rw [henc]
  · intro rows
    unfold get_decoded_data
    rw [henc]

/-- Witness for C10: the continuous-only schema `dAllCont` has no
`encoded_feature_names`, and every encoded-space operation fails. -/
theorem C10_no_encoded_without_categoricals_witness :
    dAllCont.encoded_feature_names = none ∧
      get_minx_maxx dAllCont true
        = Except.error (PyErr.attributeError "encoded_feature_names") ∧
      get_minx_maxx dAllCont false
        = Except.error (PyErr.attributeError "encoded_feature_names") ∧
      get_data_params dAllCont
        = Except.error (PyErr.attributeError "encoded_feature_names") ∧
      get_indexes_of_features_to_vary dAllCont FeaturesToVary.all
        = Except.error (PyErr.attributeError "encoded_feature_names") ∧
      get_indexes_of_features_to_vary dAllCont (FeaturesToVary.names ["age"])
        = Except.error (PyErr.attributeError "encoded_feature_names") ∧
      get_decoded_data dAllCont (DecodeInput.ndarray [[1, 2]])
        = Except.error (PyErr.attributeError "encoded_feature_names") := by
  have h := C10_no_encoded_without_categoricals
    [("age", FeatureDecl.cont 18 65)] "income" none none dAllCont (by rfl) (by decide)
  exact ⟨h.1, h.2.1 true, h.2.1 false, h.2.2.1, h.2.2.2.1, h.2.2.2.2.1 ["age"],
    h.2.2.2.2.2 [[1, 2]]⟩

/-- Counterexample to C1 as universally stated: for a schema constructed from
a feature mapping with no categorical feature, `encoded_feature_names` is not
the claimed list (here it would be `["age"]`); the attribute is never
assigned at all. -/
theorem C1_counterexample :
    mkPrivateData paramsAllCont = Except.ok dAllCont ∧
      dAllCont.continuous_feature_names = ["age"] ∧
      dAllCont.encoded_feature_names = none ∧
      dAllCont.encoded_feature_names ≠ some ["age"] :=
  ⟨by rfl, by rfl, by rfl, by decide⟩

/-- C1, amended: for every schema constructed from a feature mapping with at
least one categorical feature (and distinct feature names, as dictionary keys
are), `encoded_feature_names` is assigned and lists all continuous feature
names first in declaration order, then for each categorical feature in
declaration order its levels sorted lexicographically, each appended as the
feature name, an underscore and the level; its length is the number of
continuous features plus the sum of the level counts of the categorical
features. -/
theorem C1_encoded_feature_names_layout
    (fs : List (String × FeatureDecl)) (o : String) (tp : Option (List (String × TypePrec)))
    (m : Option (List ℚ)) (d : PrivateData)
    (hd : mkPrivateData ⟨FeaturesArg.dict fs, OutcomeArg.str o, tp, m⟩ = Except.ok d)
    (hkeys : (fs.map (fun p => p.1)).Nodup)
    (hcat : fs.filter (fun p => !p.2.isCont) ≠ []) :
    d.encoded_feature_names = some
      ((fs.filter (fun p => p.2.isCont)).map (fun p => p.1) ++
        (fs.filter (fun p => !p.2.isCont)).flatMap (fun p =>
          (sortedLevels p.2.levelsOf).map (fun lvl => p.1 ++ "_" ++ lvl))) ∧
      (d.encoded_feature_names.getD []).length
        = d.continuous_feature_names.length +
          ((fs.filter (fun p => !p.2.isCont)).map (fun p => p.2.levelsOf.length)).sum := by
  obtain ⟨-, rfl⟩ := mk_ok_build hd
  have hndcat : ((fs.filter (fun p => !p.2.isCont)).map (fun p => p.1)).Nodup :=
    List.Nodup.sublist (List.Sublist.map _ (List.filter_sublist fs)) hkeys
  have hEnc : (buildSchema fs o (tp.getD [])
      (m.getD (List.replicate fs.length (1 : ℚ)))).encoded_feature_names = some
      ((fs.filter (fun p => p.2.isCont)).map (fun p => p.1) ++
        (fs.filter (fun p => !p.2.isCont)).flatMap (fun p =>
          (sortedLevels p.2.levelsOf).map (fun lvl => p.1 ++ "_" ++ lvl))) := by
    rw [buildSchema_encoded_feature_names]
    rw [if_pos (by
      rw [buildSchema_categorical_feature_names]
      simp only [List.length_map]
      exact List.length_pos.mpr hcat)]
    rw [buildSchema_categorical_feature_names, buildSchema_continuous_feature_names,
      buildSchema_categorical_levels]
    congr 1
    congr 1
    rw [List.flatMap_map]
    apply List.flatMap_congr
    intro p hp
    have hlook : lookupAssoc
        ((fs.filter (fun p => !p.2.isCont)).map (fun p => (p.1, p.2.levelsOf))) p.1
        = some p.2.levelsOf := by
      apply lookupAssoc_eq_of_mem
      · rw [List.map_map]
        exact hndcat
      · exact List.mem_map_of_mem _ hp
    simp [Function.comp, hlook]
  refine ⟨hEnc, ?_⟩
  rw [hEnc]
  simp only [Option.getD_some, List.length_append]
  have h2 : ((fs.filter (fun p => !p.2.isCont)).flatMap (fun p =>
      (sortedLevels p.2.levelsOf).map (fun lvl => p.1 ++ "_" ++ lvl))).length
      = ((fs.filter (fun p => !p.2.isCont)).map (fun p => p.2.levelsOf.length)).sum := by
    rw [length_flatMap_eq]
    congr 1
    apply List.map_congr_left
    intro p hp
    rw [List.length_map, length_sortedLevels]
  rw [h2]
  rfl

/-- Witness for C1 on the example of the specification: continuous `age` and
categorical `color` with levels `red`, `green`, `blue` produce the layout
`["age", "color_blue", "color_green", "color_red"]` of length `1 + 3`. -/
theorem C1_encoded_feature_names_layout_witness :
    dEx.encoded_feature_names = some ["age", "color_blue", "color_green", "color_red"] ∧
      (dEx.encoded_feature_names.getD []).length = 1 + 3 := by
  have h := C1_encoded_feature_names_layout
    [("age", FeatureDecl.cont 18 65), ("color", FeatureDecl.cat ["red", "green", "blue"])]
    "income" none none dEx (by rfl) (by decide) (by decide)
  exact ⟨by rw [h.1]; rfl, by rw [h.2]; rfl⟩

/-- Counterexample to C8 as stated: with a non-empty type-and-precision map
covering only the continuous feature `a`, the constructor stores the map
as-is, so the continuous feature `b` has no entry at all (dictionary access
raises `KeyError`), instead of defaulting to `int`. -/
theorem C8_counterexample :
    mkPrivateData paramsPartialTP = Except.ok dPartialTP ∧
      dPartialTP.continuous_feature_names = ["a", "b"] ∧
      dPartialTP.type_and_precision = [("a", TypePrec.floatPrec 2)] ∧
      dictGet dPartialTP.type_and_precision "b" = Except.error (PyErr.keyError "b") :=
  ⟨by rfl, by rfl, by rfl, by rfl⟩

/-- C8, amended: the all-`int` default is applied only when the supplied
type-and-precision map is empty or absent — then every continuous feature is
mapped to `int`; a non-empty map is stored exactly as supplied, so continuous
features it does not cover have no entry. -/
theorem C8_type_and_precision_default
    (fs : List (String × FeatureDecl)) (o : String) (tp : Option (List (String × TypePrec)))
    (m : Option (List ℚ)) (d : PrivateData)
    (hd : mkPrivateData ⟨FeaturesArg.dict fs, OutcomeArg.str o, tp, m⟩ = Except.ok d) :
    ((tp.getD []).length = 0 →
      d.type_and_precision = d.continuous_feature_names.map (fun f => (f, TypePrec.int)) ∧
        ∀ f ∈ d.continuous_feature_names,
          lookupAssoc d.type_and_precision f = some TypePrec.int) ∧
      ((tp.getD []).length ≠ 0 → d.type_and_precision = tp.getD []) := by
  obtain ⟨-, rfl⟩ := mk_ok_build hd
  constructor
  · intro h0
    have heq : (buildSchema fs o (tp.getD [])
        (m.getD (List.replicate fs.length (1 : ℚ)))).type_and_precision
        = (buildSchema fs o (tp.getD [])
            (m.getD (List.replicate fs.length (1 : ℚ)))).continuous_feature_names.map
          (fun f => (f, TypePrec.int)) := by
      rw [buildSchema_type_and_precision, if_pos h0]
    refine ⟨heq, fun f hf => ?_⟩
    rw [heq]
    exact lookupAssoc_map_int _ f hf
  · intro h0
    rw [buildSchema_type_and_precision, if_neg h0]

/-- Witness for C8 (amended) at the example schema, whose constructor call
supplies no type-and-precision map: the default fills `int` for the
continuous feature `age`. -/
theorem C8_type_and_precision_default_witness :
    dEx.type_and_precision = [("age", TypePrec.int)] ∧
      lookupAssoc dEx.type_and_precision "age" = some TypePrec.int := by
  have h := C8_type_and_precision_default
    [("age", FeatureDecl.cont 18 65), ("color", FeatureDecl.cat ["red", "green", "blue"])]
    "income" none none dEx (by rfl)
  have h1 := h.1 (by rfl)
  exact ⟨by rw [h1.1]; rfl, h1.2 "age" (by decide)⟩

/-- Taking one past a just-set position splits off the written value. -/
theorem take_succ_set (v : Nat) :
    ∀ (l : List Nat) (n : Nat), n < l.length →
      ((l.set n v).take (n + 1)) = l.take n ++ [v] := by
  intro l
  induction l with
  | nil => intro n h; simp at h
  | cons a l ih =>
    intro n h
    cases n with
    | zero => simp
    | succ n =>
      simp only [List.set_cons_succ, List.take_succ_cons, List.cons_append]
      rw [ih n (by simpa using h)]

/-- Setting strictly below a drop position does not change the drop. -/
theorem drop_set_of_lt (v : Nat) :
    ∀ (l : List Nat) (n m : Nat), n < m → (l.set n v).drop m = l.drop m := by
  intro l
  induction l with
  | nil => intro n m h; simp
  | cons a l ih =>
    intro n m h
    cases n with
    | zero =>
      cases m with
      | zero => omega
      | succ m => simp
    | succ n =>
      cases m with
      | zero => omega
      | succ m => simpa using ih n m (by omega)

/-- The second component of an enumerated entry is an element of the list. -/
theorem snd_mem_of_mem_enumFrom {α : Type} :
    ∀ (l : List α) (n : Nat) (p : Nat × α), p ∈ List.enumFrom n l → p.2 ∈ l := by
  intro l
  induction l with
  | nil => intro n p h; simp at h
  | cons a l ih =>
    intro n p h
    rw [List.enumFrom_cons] at h
    rcases List.mem_cons.mp h with h | h
    · subst h
      exact List.mem_cons_self a l
    · exact List.mem_cons_of_mem a (ih (n + 1) p h)

/-- The loop of `get_decimal_precisions`, which writes position `ix` for the
`ix`-th continuous feature, described as a slice replacement. -/
theorem foldl_set_enumFrom (g : String → Nat) :
    ∀ (names : List String) (n : Nat) (init : List Nat), n + names.length ≤ init.length →
      (List.enumFrom n names).foldl (fun acc p => acc.set p.1 (g p.2)) init
        = init.take n ++ names.map g ++ init.drop (n + names.length) := by
  intro names
  induction names with
  | nil =>
    intro n init h
    simp
  | cons x xs ih =>
    intro n init h
    rw [List.enumFrom_cons, List.foldl_cons]
    have hlt : n < init.length := by
      simp only [List.length_cons] at h
      omega
    have hrec := ih (n + 1) (init.set n (g x)) (by
      rw [List.length_set]
      simp only [List.length_cons] at h
      omega)
    rw [hrec]
    rw [take_succ_set (g x) init n hlt]
    rw [drop_set_of_lt (g x) init n (n + 1 + xs.length) (by omega)]
    rw [show n + (x :: xs).length = n + 1 + xs.length from by
      simp only [List.length_cons]
      omega]
    simp [List.append_assoc]

/-- C7, amended: when every continuous feature has a type-and-precision
entry, `get_decimal_precisions` returns one entry per raw declared feature:
position `ix` for `ix` below the number of continuous features holds the
precision of the `ix`-th continuous feature (0 for `int`, the declared count
for `float`) — the position of the feature within `continuous_feature_names`,
not its raw-feature-list position — and all remaining positions hold 0. -/
theorem C7_decimal_precisions
    (fs : List (String × FeatureDecl)) (o : String) (tp : Option (List (String × TypePrec)))
    (m : Option (List ℚ)) (d : PrivateData)
    (hd : mkPrivateData ⟨FeaturesArg.dict fs, OutcomeArg.str o, tp, m⟩ = Except.ok d)
    (htp : ∀ f ∈ d.continuous_feature_names,
      (lookupAssoc d.type_and_precision f).isSome = true) :
    get_decimal_precisions d = Except.ok
      (d.continuous_feature_names.map (fun f =>
          precOf ((lookupAssoc d.type_and_precision f).getD TypePrec.int)) ++
        List.replicate (d.feature_names.length - d.continuous_feature_names.length) 0) := by
  have hlen : d.continuous_feature_names.length ≤ d.feature_names.length := by
    obtain ⟨-, rfl⟩ := mk_ok_build hd
    rw [buildSchema_continuous_feature_names, buildSchema_feature_names]
    simp only [List.length_map]
    exact List.length_filter_le _ _
  unfold get_decimal_precisions
  have hstep : ∀ p ∈ d.continuous_feature_names.enum, ∀ acc : List Nat,
      (do
        let type_prec ← dictGet d.type_and_precision p.2
        pure (acc.set p.1 (precOf type_prec)))
      = Except.ok (acc.set p.1
          (precOf ((lookupAssoc d.type_and_precision p.2).getD TypePrec.int))) := by
    intro p hp acc
    have hmem : p.2 ∈ d.continuous_feature_names := snd_mem_of_mem_enumFrom _ 0 p hp
    rcases Option.isSome_iff_exists.mp (htp p.2 hmem) with ⟨t, ht⟩
    have h1 : dictGet d.type_and_precision p.2 = Except.ok t :=
      (dictGet_eq_ok_iff _ _ _).mpr ht
    simp only [h1, ht, Option.getD_some]
    rfl
  rw [foldlM_ok _
    (fun acc (p : Nat × String) => acc.set p.1
      (precOf ((lookupAssoc d.type_and_precision p.2).getD TypePrec.int))) _ _ hstep]
  have hfold := foldl_set_enumFrom
    (fun f => precOf ((lookupAssoc d.type_and_precision f).getD TypePrec.int))
    d.continuous_feature_names 0 (List.replicate d.feature_names.length 0)
    (by simpa using hlen)
  rw [show List.enum d.continuous_feature_names
      = List.enumFrom 0 d.continuous_feature_names from rfl] at *
  rw [hfold]
  rw [List.take_zero, List.nil_append, Nat.zero_add, drop_replicate_eq]

/-- Witness for C7 (amended) on a schema whose single continuous feature `a`
is declared first with `float` precision 2: the result holds 2 at position 0
(both the continuous index and the raw position of `a`) and 0 at the
categorical position. -/
theorem C7_decimal_precisions_witness :
    get_decimal_precisions dFloatTP = Except.ok [2, 0] := by
  have h := C7_decimal_precisions
    [("a", FeatureDecl.cont 0 10), ("c", FeatureDecl.cat ["x", "y"])]
    "income" (some [("a", TypePrec.floatPrec 2)]) none dFloatTP (by rfl) (by decide)
  rw [h]
  rfl

/-- Counterexample to C7 as stated: in a schema declaring categorical `color`
first and continuous `age` second with precision `(float, 2)`, the raw
position of `age` in `feature_names` is 1, but `get_decimal_precisions`
writes the precision 2 at position 0 (the position of `age` within
`continuous_feature_names`), leaving 0 at the raw position 1. -/
theorem C7_counterexample :
    mkPrivateData paramsMixed = Except.ok dMixed ∧
      dMixed.feature_names = ["color", "age"] ∧
      dMixed.continuous_feature_names = ["age"] ∧
      lookupAssoc dMixed.type_and_precision "age" = some (TypePrec.floatPrec 2) ∧
      get_decimal_precisions dMixed = Except.ok [2, 0] ∧
      dMixed.feature_names.indexOf "age" = 1 ∧
      ([2, 0].getD 1 0 ≠ 2) :=
  ⟨by rfl, by rfl, by rfl, by rfl, by rfl, by rfl, by decide⟩

/-- C4 (code bug).  On the example schema, the `all` sentinel returns every
encoded index as claimed, but any actual list of feature names makes the
method raise `NameError`: the filtering branch evaluates
`tuple(feature_list)` and the name `feature_list` is not defined anywhere in
the program, so the claimed filtering (and the claimed `ConfigurationError`
for unrecognized names, which no code implements) never happens. -/
theorem C4_features_to_vary_bug :
    get_indexes_of_features_to_vary dEx FeaturesToVary.all = Except.ok [0, 1, 2, 3] ∧
      get_indexes_of_features_to_vary dEx (FeaturesToVary.names ["age"])
        = Except.error (PyErr.nameError "feature_list") ∧
      get_indexes_of_features_to_vary dEx (FeaturesToVary.names ["not_a_feature"])
        = Except.error (PyErr.nameError "feature_list") :=
  ⟨by rfl, by rfl, by rfl⟩

/-- C5 (code bug).  On the example schema, the normalized branch returns the
all-zero and all-one vectors of length `len(encoded_feature_names)` as
claimed, but `normalized=False` raises `NameError`: that branch reads the
names `idx` and `feature_name`, neither of which is defined in the method,
so the claimed de-normalized vectors are never produced. -/
theorem C5_minx_maxx_bug :
    get_minx_maxx dEx true = Except.ok ([0, 0, 0, 0], [1, 1, 1, 1]) ∧
      (dEx.encoded_feature_names.getD []).length = 4 ∧
      get_minx_maxx dEx false = Except.error (PyErr.nameError "idx") :=
  ⟨by rfl, by rfl, by rfl⟩

/-- Binding a successful `Except` computation applies the continuation. -/
theorem except_bind_ok {α β ε : Type} (a : α) (f : α → Except ε β) :
    (Except.ok (ε := ε) a >>= f) = f a := rfl

/-- A string extended on the right starts with the original string. -/
theorem strStartsWith_append (f s : String) : strStartsWith (f ++ s) f = true := by
  unfold strStartsWith
  rw [List.isPrefixOf_iff_prefix, String.data_append]
  exact List.prefix_append _ _

/-- Every own one-hot column of a feature starts with the feature name. -/
theorem ownCols_startsWith (d : PrivateData) (f : String) :
    ∀ c ∈ ownCols d f, strStartsWith c f = true := by
  intro c hc
  rcases List.mem_map.mp hc with ⟨lvl, _, rfl⟩
  have : f ++ "_" ++ lvl = f ++ ("_" ++ lvl) := by
    apply String.ext
    simp [String.data_append, List.append_assoc]
  rw [this]
  exact strStartsWith_append f _

/-- Retrieving a present element at its first-occurrence index returns it. -/
theorem getD_indexOf_of_mem {l : List String} {a : String} (h : a ∈ l) :
    l.getD (l.indexOf a) "" = a := by
  have hlt : l.indexOf a < l.length := List.indexOf_lt_length.mpr h
  rw [List.getD_eq_getElem?_getD, List.getElem?_eq_getElem hlt]
  simpa using List.getElem_indexOf hlt

/-- Filtering a duplicate-free concatenation of per-feature blocks with a
predicate that holds on the block of `f` and sends every hit into that block
returns exactly the block of `f`. -/
theorem filter_flatMap_own (own : String → List String) (p : String → Bool) (f : String) :
    ∀ cats : List String, (cats.flatMap own).Nodup → f ∈ cats →
      (∀ c ∈ own f, p c = true) →
      (∀ g ∈ cats, ∀ col ∈ own g, p col = true → col ∈ own f) →
      (cats.flatMap own).filter p = own f := by
  intro cats
  induction cats with
  | nil =>
    intro _ hf
    simp at hf
  | cons g rest ih =>
    intro hnd hf hown hcoll
    rw [List.flatMap_cons] at hnd ⊢
    rw [List.filter_append]
    have hsplit := List.nodup_append.mp hnd
    by_cases hgf : g = f
    · subst hgf
      have h1 : (own g).filter p = own g := List.filter_eq_self.mpr hown
      have h2 : (rest.flatMap own).filter p = [] := by
        rw [List.filter_eq_nil_iff]
        intro col hcol hp
        rcases List.mem_flatMap.mp hcol with ⟨g2, hg2, hcolg2⟩
        have hcf : col ∈ own g := hcoll g2 (List.mem_cons_of_mem g hg2) col hcolg2 hp
        exact hsplit.2.2 hcf hcol
      rw [h1, h2, List.append_nil]
    · have hf2 : f ∈ rest := by
        rcases List.mem_cons.mp hf with h | h
        · exact absurd h.symm hgf
        · exact h
      have h1 : (own g).filter p = [] := by
        rw [List.filter_eq_nil_iff]
        intro col hcol hp
        have hcf : col ∈ own f := hcoll g (List.mem_cons_self g rest) col hcol hp
        have : col ∈ rest.flatMap own := List.mem_flatMap.mpr ⟨f, hf2, hcf⟩
        exact hsplit.2.2 hcol this
      rw [h1, List.nil_append]
      exact ih hsplit.2.1 hf2 hown (fun g2 hg2 => hcoll g2 (List.mem_cons_of_mem g hg2))

/-- Membership survives `contains` for strings. -/
theorem contains_eq_true_of_mem {l : List String} {a : String} (h : a ∈ l) :
    l.contains a = true := by
  simpa [List.elem_iff] using h

/-- The index list of the continuous features has one entry per continuous
feature: every continuous feature name is a feature name, so the membership
filter keeps the whole list. -/
theorem cont_indexes_length (fs : List (String × FeatureDecl)) (o : String)
    (tp : List (String × TypePrec)) (m : List ℚ) :
    (buildSchema fs o tp m).continuous_feature_indexes.length
      = (buildSchema fs o tp m).continuous_feature_names.length := by
  rw [buildSchema_continuous_feature_indexes]
  rw [List.length_map]
  congr 1
  apply List.filter_eq_self.mpr
  intro n hn
  apply contains_eq_true_of_mem
  rw [buildSchema_continuous_feature_names] at hn
  rcases List.mem_map.mp hn with ⟨q, hq, rfl⟩
  rw [buildSchema_feature_names]
  exact List.mem_map_of_mem _ (List.mem_of_mem_filter hq)

/-- The encoded layout of a schema with categorical features is the
continuous names followed by the concatenated own one-hot blocks. -/
theorem encoded_eq_own (fs : List (String × FeatureDecl)) (o : String)
    (tp : List (String × TypePrec)) (m : List ℚ)
    (hcatne : (buildSchema fs o tp m).categorical_feature_names ≠ []) :
    (buildSchema fs o tp m).encoded_feature_names
      = some ((buildSchema fs o tp m).continuous_feature_names ++
          (buildSchema fs o tp m).categorical_feature_names.flatMap
            (ownCols (buildSchema fs o tp m))) := by
  rw [buildSchema_encoded_feature_names, if_pos (List.length_pos.mpr hcatne)]
  rfl

/-- Counterexample to C6 as stated: with categorical features `color` and
`colorful` (the first a proper prefix of the second), the group computed for
`color` is built with `startswith` and therefore also contains position 2,
the one-hot column `colorful_a` of the other feature. -/
theorem C6_counterexample :
    mkPrivateData paramsPre = Except.ok dPre ∧
      dPre.categorical_feature_names = ["color", "colorful"] ∧
      dPre.encoded_feature_names = some ["color_g", "color_r", "colorful_a"] ∧
      get_encoded_categorical_feature_indexes dPre = Except.ok [[0, 1, 2], [2]] ∧
      ownCols dPre "color" = ["color_g", "color_r"] ∧
      ("colorful_a" ∉ ownCols dPre "color") :=
  ⟨by rfl, by rfl, by rfl, by rfl, by rfl, by decide⟩

/-- C6, amended: when the encoded column names are distinct and every encoded
column that starts with a categorical feature name is one of that feature
own one-hot columns (no cross-feature prefix collision), `get_data_params`
returns the positions `0..|continuous|-1` as the encoded continuous indexes
and, for each categorical feature in declaration order, the group of the
encoded positions of exactly that feature own one-hot columns in sorted-level
order; mapping each group back through the encoded layout recovers exactly
those column names. -/
theorem C6_data_params_groups
    (fs : List (String × FeatureDecl)) (o : String) (tp : Option (List (String × TypePrec)))
    (m : Option (List ℚ)) (d : PrivateData)
    (hd : mkPrivateData ⟨FeaturesArg.dict fs, OutcomeArg.str o, tp, m⟩ = Except.ok d)
    (enc : List String) (henc : d.encoded_feature_names = some enc)
    (hnd : enc.Nodup)
    (hcoll : ∀ f ∈ d.categorical_feature_names, ∀ col ∈ enc,
      strStartsWith col f = true → col ∈ ownCols d f) :
    get_data_params d = Except.ok
      (List.replicate enc.length (0 : ℚ), List.replicate enc.length (1 : ℚ),
        List.range d.continuous_feature_names.length,
        d.categorical_feature_names.map
          (fun f => (ownCols d f).map (fun c => enc.indexOf c))) ∧
      ∀ f ∈ d.categorical_feature_names,
        ((ownCols d f).map (fun c => enc.indexOf c)).map (fun i => enc.getD i "")
          = ownCols d f := by
  obtain ⟨-, hbuild⟩ := mk_ok_build hd
  have hcatne : d.categorical_feature_names ≠ [] := by
    intro h0
    rw [hbuild, buildSchema_encoded_feature_names] at henc
    rw [← hbuild] at henc
    rw [h0] at henc
    simp at henc
  have hEnc2 : enc = d.continuous_feature_names ++
      d.categorical_feature_names.flatMap (ownCols d) := by
    have := encoded_eq_own fs o (tp.getD []) (m.getD (List.replicate fs.length (1 : ℚ)))
      (by rw [← hbuild]; exact hcatne)
    rw [← hbuild] at this
    rw [henc] at this
    exact (Option.some.injEq _ _).mp this
  have hndapp := List.nodup_append.mp (hEnc2 ▸ hnd)
  have hownsub : ∀ f ∈ d.categorical_feature_names, ∀ c ∈ ownCols d f, c ∈ enc := by
    intro f hf c hc
    rw [hEnc2]
    exact List.mem_append_right _ (List.mem_flatMap.mpr ⟨f, hf, hc⟩)
  have hfilter : ∀ f ∈ d.categorical_feature_names,
      enc.filter (fun col => strStartsWith col f) = ownCols d f := by
    intro f hf
    rw [hEnc2, List.filter_append]
    have h1 : d.continuous_feature_names.filter (fun col => strStartsWith col f) = [] := by
      rw [List.filter_eq_nil_iff]
      intro col hcol hp
      have hcf : col ∈ ownCols d f := hcoll f hf col (hEnc2 ▸ List.mem_append_left _ hcol) hp
      have : col ∈ d.categorical_feature_names.flatMap (ownCols d) :=
        List.mem_flatMap.mpr ⟨f, hf, hcf⟩
      exact hndapp.2.2 hcol this
    have h2 : (d.categorical_feature_names.flatMap (ownCols d)).filter
        (fun col => strStartsWith col f) = ownCols d f := by
      apply filter_flatMap_own (ownCols d) _ f d.categorical_feature_names hndapp.2.1 hf
      · exact ownCols_startsWith d f
      · intro g hg col hcol hp
        exact hcoll f hf col (hownsub g hg col hcol) hp
    rw [h1, h2, List.nil_append]
  have hmm : get_minx_maxx d true = Except.ok
      (List.replicate enc.length (0 : ℚ), List.replicate enc.length (1 : ℚ)) := by
    unfold get_minx_maxx
    rw [henc]
    rfl
  have hgroups : get_encoded_categorical_feature_indexes d = Except.ok
      (d.categorical_feature_names.map
        (fun f => (ownCols d f).map (fun c => enc.indexOf c))) := by
    unfold get_encoded_categorical_feature_indexes
    apply mapExcept_ok
    intro f hf
    rw [henc]
    show Except.ok ((enc.filter (fun col => strStartsWith col f)).map
      (fun col => enc.indexOf col)) = _
    rw [hfilter f hf]
  have hlen : d.continuous_feature_indexes.length = d.continuous_feature_names.length := by
    rw [hbuild]
    exact cont_indexes_length fs o _ _
  constructor
  · unfold get_data_params
    rw [hmm, except_bind_ok, hgroups, except_bind_ok, hlen]
    rfl
  · intro f hf
    rw [List.map_map]
    have hpt : ∀ c ∈ ownCols d f,
        ((fun i => enc.getD i "") ∘ (fun c => enc.indexOf c)) c = c := by
      intro c hc
      exact getD_indexOf_of_mem (hownsub f hf c hc)
    rw [List.map_congr_left hpt]
    simp

/-- Witness for C6 (amended) on the example schema: the continuous index list
is `[0]` and the single categorical group holds positions 1, 2, 3, exactly
the sorted one-hot columns of `color`. -/
theorem C6_data_params_groups_witness :
    get_data_params dEx = Except.ok
      ([0, 0, 0, 0], [1, 1, 1, 1], [0], [[1, 2, 3]]) ∧
      ((ownCols dEx "color").map
          (fun c => ["age", "color_blue", "color_green", "color_red"].indexOf c)).map
        (fun i => ["age", "color_blue", "color_green", "color_red"].getD i "")
        = ownCols dEx "color" := by
  have h := C6_data_params_groups
    [("age", FeatureDecl.cont 18 65), ("color", FeatureDecl.cat ["red", "green", "blue"])]
    "income" none none dEx (by rfl)
    ["age", "color_blue", "color_green", "color_red"] (by rfl) (by decide) (by decide)
  exact ⟨by rw [h.1]; rfl, h.2 "color" (by decide)⟩
